import Mathlib

/-!
Verification of the helper utilities of the aem-dashboard-simulator
repository (`src/utils/helpers.js`).

JavaScript strings are modelled as `List Char` (a JS string is a sequence
of code units; all the claims live in the scalar-value fragment where the
two views agree).  JS runtime values reachable in the helpers are modelled
by the inductive type `Value`; numbers are modelled as integers plus an
explicit NaN constructor (none of the verified claims depends on
non-integral numerics).
-/

/-- A JS string, modelled as its list of characters. -/
abbrev JStr : Type := List Char

/-- Code points of the characters matched by the regex class `\s` (and by
`String.prototype.trim`): TAB, LF, VT, FF, CR, SP, NBSP, and the Unicode
space separators, line/paragraph separators and BOM. -/
def wsCodes : List Nat :=
  [9, 10, 11, 12, 13, 32, 160, 5760, 8192, 8193, 8194, 8195, 8196, 8197,
   8198, 8199, 8200, 8201, 8202, 8232, 8233, 8239, 8287, 12288, 65279]

/-- `c` is a whitespace character in the sense of JS `\s` / `trim`. -/
def isWsCh (c : Char) : Bool := wsCodes.contains c.toNat

/-- `c` is an ASCII uppercase letter (`A`-`Z`). -/
def isUpperCh (c : Char) : Bool := decide (65 ≤ c.toNat ∧ c.toNat ≤ 90)

/-- `c` is an ASCII lowercase letter (`a`-`z`). -/
def isLowerCh (c : Char) : Bool := decide (97 ≤ c.toNat ∧ c.toNat ≤ 122)

/-- `c` is an ASCII digit (`0`-`9`). -/
def isDigitCh (c : Char) : Bool := decide (48 ≤ c.toNat ∧ c.toNat ≤ 57)

/-- `c` matches the regex class `\w`, i.e. `[A-Za-z0-9_]`. -/
def isWordCh (c : Char) : Bool := isUpperCh c || isLowerCh c || isDigitCh c || c = '_'

/-- Character-wise model of `String.prototype.toLowerCase`.  On the ASCII
range this is exact; non-ASCII letters are left unchanged (they are
removed by `slugify`'s character filter in either casing, and none of the
verified claims distinguishes them). -/
def jsToLower (c : Char) : Char :=
  if isUpperCh c then Char.ofNat (c.toNat + 32) else c

/-- Model of `String.prototype.trim`: drop leading and trailing
whitespace. -/
def jsTrim (l : JStr) : JStr :=
  ((l.dropWhile isWsCh).reverse.dropWhile isWsCh).reverse

/-- `.replace(/[^\w\s-]/g, '')` from `slugify`: keep only word
characters, whitespace and hyphens. -/
def removeSpecial (l : JStr) : JStr :=
  l.filter (fun c => isWordCh c || isWsCh c || c = '-')

/-- `c` is in the regex class `[\s_-]` collapsed by `slugify`. -/
def isSepCh (c : Char) : Bool := isWsCh c || c = '_' || c = '-'

/-- `.replace(/[\s_-]+/g, '-')` from `slugify`: every maximal run of
whitespace/underscore/hyphen characters becomes a single hyphen.  The
boolean flag records whether the previous character belonged to such a
run. -/
def collapseSeps : JStr → Bool → JStr
  | [], _ => []
  | c :: cs, inRun =>
    if isSepCh c then
      if inRun then collapseSeps cs true else '-' :: collapseSeps cs true
    else c :: collapseSeps cs false

/-- Drop the trailing run of hyphens (the `-+$` half of
`.replace(/^-+|-+$/g, '')`). -/
def dropTrailingDashes : JStr → JStr
  | [] => []
  | c :: cs =>
    match dropTrailingDashes cs with
    | [] => if c = '-' then [] else [c]
    | r => c :: r

/-- `.replace(/^-+|-+$/g, '')` from `slugify`: remove the leading and the
trailing run of hyphens. -/
def stripHyphens (l : JStr) : JStr :=
  dropTrailingDashes (l.dropWhile (fun c => c = '-'))

/-- `slugify` from `src/utils/helpers.js`: lowercase, trim, remove
special characters, collapse whitespace/underscore/hyphen runs to single
hyphens, strip leading/trailing hyphens. -/
def slugify (s : JStr) : JStr :=
  stripHyphens (collapseSeps (removeSpecial (jsTrim (s.map jsToLower))) false)

example : slugify "  Hello,  World_--Test!  ".data = "hello-world-test".data := by decide
example : slugify "---".data = "".data := by decide
example : slugify "A__B".data = "a-b".data := by decide

/-! ## JS runtime values -/

/-- JS runtime values reachable in the helper functions.  Numbers are
modelled as integers together with an explicit `vNaN`; the helpers under
verification never produce non-integral numbers from integral inputs. -/
inductive Value : Type where
  | vStr : JStr → Value
  | vNum : Int → Value
  | vNaN : Value
  | vBool : Bool → Value
  | vNull : Value
  | vUndefined : Value
deriving DecidableEq, Repr

open Value

/-- JS truthiness (`ToBoolean`). -/
def truthy : Value → Bool
  | vStr s => !s.isEmpty
  | vNum n => decide (n ≠ 0)
  | vNaN => false
  | vBool b => b
  | vNull => false
  | vUndefined => false

/-- Decimal digits of a natural number, as characters. -/
def natToStr (n : Nat) : JStr := Nat.toDigits 10 n

/-- Decimal notation of an integer, as produced by JS number-to-string
conversion on integral values. -/
def intToStr (i : Int) : JStr :=
  if i < 0 then '-' :: natToStr i.natAbs else natToStr i.toNat

/-- JS `ToString` on the modelled values (the `value.toString()` call in
`filterBySearch`). -/
def toStrV : Value → JStr
  | vStr s => s
  | vNum n => intToStr n
  | vNaN => "NaN".data
  | vBool b => if b then "true".data else "false".data
  | vNull => "null".data
  | vUndefined => "undefined".data

/-- A JS record (plain object), modelled as an association list from
property names to values. -/
abbrev Item : Type := List (JStr × Value)

/-- Property lookup `item[key]`; a missing property reads as
`undefined`. -/
def getField (item : Item) (key : JStr) : Value :=
  match item.find? (fun kv => kv.1 == key) with
  | some kv => kv.2
  | none => vUndefined

/-! ## Substring search (`String.prototype.includes`) -/

/-- `startsWithL pat l`: `pat` is an initial segment of `l`. -/
def startsWithL : JStr → JStr → Bool
  | [], _ => true
  | _ :: _, [] => false
  | a :: as, b :: bs => a = b && startsWithL as bs

/-- Model of `hay.includes(needle)`: `needle` occurs contiguously in
`hay`. -/
def includesL (hay needle : JStr) : Bool :=
  match hay with
  | [] => startsWithL needle []
  | _ :: rest => startsWithL needle hay || includesL rest needle

/-! ## filterBySearch -/

/-- The per-key match test from the body of `filterBySearch`:
`value && value.toString().toLowerCase().includes(term)` (where `term` is
already lowercased). -/
def valueMatches (v : Value) (term : JStr) : Bool :=
  truthy v && includesL ((toStrV v).map jsToLower) term

/-- `filterBySearch` from `src/utils/helpers.js`: with a falsy (empty)
search term the array is returned unchanged; otherwise an item is kept
when some key's value passes `valueMatches` against the lowercased
term. -/
def filterBySearch (array : List Item) (searchTerm : JStr) (keys : List JStr) : List Item :=
  if searchTerm.isEmpty then array
  else
    let term := searchTerm.map jsToLower
    array.filter (fun item => keys.any (fun key => valueMatches (getField item key) term))

/-! ## JS relational comparison and `Array.prototype.sort` -/

/-- Lexicographic code-unit comparison of JS strings (the string case of
the abstract relational comparison `<`). -/
def lexLt : JStr → JStr → Bool
  | [], [] => false
  | [], _ :: _ => true
  | _ :: _, [] => false
  | a :: as, b :: bs =>
    if a.toNat < b.toNat then true
    else if b.toNat < a.toNat then false
    else lexLt as bs

/-- The digits of `l` read as a natural number. -/
def digitsToNat (l : JStr) : Nat :=
  l.foldl (fun n c => 10 * n + (c.toNat - 48)) 0

/-- JS `ToNumber` on a string, restricted to the integral fragment of the
model: whitespace-trimmed empty strings read as 0, optionally signed digit
strings read as the corresponding integer, anything else is NaN
(`none`). -/
def jsStringToNumber (s : JStr) : Option Int :=
  let t := jsTrim s
  if t.isEmpty then some 0
  else
    match t with
    | '-' :: ds => if !ds.isEmpty && ds.all isDigitCh then some (-(digitsToNat ds : Int)) else none
    | '+' :: ds => if !ds.isEmpty && ds.all isDigitCh then some (digitsToNat ds : Int) else none
    | ds => if ds.all isDigitCh then some (digitsToNat ds : Int) else none

/-- JS `ToNumber` on the modelled values; `none` is NaN. -/
def toNumberV : Value → Option Int
  | vStr s => jsStringToNumber s
  | vNum n => some n
  | vNaN => none
  | vBool b => some (if b then 1 else 0)
  | vNull => some 0
  | vUndefined => none

/-- The abstract relational comparison `a < b` on modelled values: string
pairs compare lexicographically, everything else numerically, and any
comparison involving NaN is false. -/
def jsLt : Value → Value → Bool
  | vStr a, vStr b => lexLt a b
  | a, b =>
    match toNumberV a, toNumberV b with
    | some x, some y => decide (x < y)
    | _, _ => false

/-- The comparator closure passed to `.sort` by `sortByKey`
(`valueA < valueB`, `valueA > valueB`, else equal; JS `a > b` is the
relational comparison `b < a`). -/
def compareByKey (key order : JStr) (a b : Item) : Int :=
  let valueA := getField a key
  let valueB := getField b key
  if jsLt valueA valueB then (if order = "asc".data then -1 else 1)
  else if jsLt valueB valueA then (if order = "asc".data then 1 else -1)
  else 0

/-- One insertion step of the sort model, on a reversed accumulator: the
new element moves left (in array order: from the right end) past exactly
the elements `y` with `cmp x y < 0`.  For comparators that are consistent
in the ECMAScript sense this computes the stable sort that
`Array.prototype.sort` is specified to produce. -/
def insRev {α : Type} (cmp : α → α → Int) (x : α) : List α → List α
  | [] => [x]
  | y :: ys => if cmp x y < 0 then y :: insRev cmp x ys else x :: y :: ys

/-- Model of `Array.prototype.sort` with comparator `cmp`: stable binary
insertion, built on a reversed accumulator. -/
def jsSortModel {α : Type} (cmp : α → α → Int) (l : List α) : List α :=
  (l.foldl (fun acc x => insRev cmp x acc) []).reverse

/-- `sortByKey` from `src/utils/helpers.js`, as a pure function on the
array value: `[...array].sort(comparator)`. -/
def sortByKey (array : List Item) (key : JStr) (order : JStr) : List Item :=
  jsSortModel (compareByKey key order) array

example :
    sortByKey
      [[("a".data, vNum 2)], [("a".data, vNum 1)], [("a".data, vNum 3)]]
      "a".data "asc".data
    = [[("a".data, vNum 1)], [("a".data, vNum 2)], [("a".data, vNum 3)]] := by decide

example :
    sortByKey
      [[("a".data, vNum 2)], [("a".data, vNum 1)], [("a".data, vNum 3)]]
      "a".data "desc".data
    = [[("a".data, vNum 3)], [("a".data, vNum 2)], [("a".data, vNum 1)]] := by decide

/-! ## truncate -/

/-- Model of `String.prototype.substring(start, end)`: both indices are
clamped to `[0, s.length]` and swapped when out of order. -/
def jsSubstring (s : JStr) (start finish : Int) : JStr :=
  let len : Int := s.length
  let a := min (max start 0) len
  let b := min (max finish 0) len
  let lo := min a b
  let hi := max a b
  (s.take hi.toNat).drop lo.toNat

/-- `truncate` from `src/utils/helpers.js`: a falsy (empty) or short
enough string is returned unchanged, otherwise the first
`length - suffix.length` characters are concatenated with the suffix. -/
def truncate (s : JStr) (length : Int) (suffix : JStr) : JStr :=
  if s.isEmpty || decide ((s.length : Int) ≤ length) then s
  else jsSubstring s 0 (length - suffix.length) ++ suffix

example : truncate "hello world".data 8 "...".data = "hello...".data := by decide
example : truncate "hi".data 8 "...".data = "hi".data := by decide

/-! ## timeAgo -/

/-- The `intervals` object of `timeAgo`, in `Object.entries` order
(insertion order). -/
def intervalsList : List (JStr × Int) :=
  [("year".data, 31536000), ("month".data, 2592000), ("week".data, 604800),
   ("day".data, 86400), ("hour".data, 3600), ("minute".data, 60)]

/-- The template literal
`${interval} ${unit}${interval > 1 ? 's' : ''} ago` from `timeAgo`. -/
def fmtAgo (interval : Int) (unit : JStr) : JStr :=
  intToStr interval ++ " ".data ++ unit ++ (if 1 < interval then "s".data else []) ++ " ago".data

/-- The `for`-loop of `timeAgo`: return the formatted string for the
first unit whose floored quotient is at least 1. -/
def timeAgoLoop (seconds : Int) : List (JStr × Int) → Option JStr
  | [] => none
  | (unit, secondsInUnit) :: rest =>
    let interval := Int.fdiv seconds secondsInUnit
    if 1 ≤ interval then some (fmtAgo interval unit) else timeAgoLoop seconds rest

/-- `timeAgo` from `src/utils/helpers.js`, on the two times in
milliseconds: elapsed whole seconds are `Math.floor((now - date)/1000)`,
then the loop over the intervals, then the `"Just now"` fallback. -/
def timeAgo (nowMs dateMs : Int) : JStr :=
  let seconds := Int.fdiv (nowMs - dateMs) 1000
  match timeAgoLoop seconds intervalsList with
  | some s => s
  | none => "Just now".data

example : timeAgo 3661000 0 = "1 hour ago".data := by decide
example : timeAgo 0 0 = "Just now".data := by decide
example : timeAgo 0 5000 = "Just now".data := by decide
example : timeAgo 7200000 0 = "2 hours ago".data := by decide

/-! ## isNotEmpty -/

/-- `isNotEmpty` from `src/utils/helpers.js`:
`return str && str.trim().length > 0`.  JS `&&` returns its first operand
when that operand is falsy, so a falsy string input (the empty string) is
returned as-is rather than converted to a boolean. -/
def isNotEmpty (s : JStr) : Value :=
  if truthy (vStr s) then vBool (decide (0 < (jsTrim s).length)) else vStr s

example : isNotEmpty "hi".data = vBool true := by decide
example : isNotEmpty "  ".data = vBool false := by decide
example : isNotEmpty "".data = vStr [] := by decide

/-! ## debounce

The wrapper returned by `debounce(fn, wait)` owns one piece of state: the
pending timer (its fire time and the captured arguments).  Each call
cancels the pending timer and schedules a new one at `callTime + wait`;
when time passes a pending timer's fire time with no intervening call,
`fn` executes with the captured arguments.  `runDebounce` executes a
time-ordered list of calls against that state and returns the list of
executions of `fn` (fire time and arguments); after the last call, time
runs to infinity, so a still-pending timer fires. -/

/-- Discrete-event semantics of the debounced wrapper: process the calls
in time order against the pending-timer state, recording each firing of
the wrapped `fn`. -/
def runDebounce {α : Type} (wait : Int) : List (Int × α) → Option (Int × α) → List (Int × α)
  | [], pending =>
    match pending with
    | none => []
    | some p => [p]
  | (t, a) :: rest, pending =>
    match pending with
    | some (ft, fa) =>
      if ft ≤ t then (ft, fa) :: runDebounce wait rest (some (t + wait, a))
      else runDebounce wait rest (some (t + wait, a))
    | none => runDebounce wait rest (some (t + wait, a))

/-- The executions of `fn` produced by calling the debounced wrapper at
the given times with the given arguments, starting from a fresh wrapper
(no pending timer). -/
def debounceExecutions {α : Type} (wait : Int) (calls : List (Int × α)) : List (Int × α) :=
  runDebounce wait calls none

example : debounceExecutions 300 [((0 : Int), 'a'), (50, 'b'), (100, 'c')] = [(400, 'c')] := by
  decide
example : debounceExecutions 300 [((0 : Int), 'a'), (400, 'b')] = [(300, 'a'), (700, 'b')] := by
  decide

/-! ## Array references (for the no-mutation claim)

`sortByKey` receives a reference to the caller's array and evaluates
`[...array].sort(...)`: the spread allocates a fresh array and `.sort`
mutates that fresh array in place.  To state that the caller's array is
unchanged, arrays are placed in an explicit heap of array cells addressed
by natural numbers. -/

/-- A heap of JS arrays. -/
structure JsHeap (α : Type) : Type where
  arrays : List (List α)

/-- Read the array behind reference `r` (a dangling reference reads
`[]`; the theorems only use valid references). -/
def readArr {α : Type} (h : JsHeap α) (r : Nat) : List α := h.arrays.getD r []

/-- Overwrite the array behind reference `r`. -/
def writeArr {α : Type} (h : JsHeap α) (r : Nat) (l : List α) : JsHeap α :=
  ⟨h.arrays.set r l⟩

/-- The spread `[...array]`: allocate a fresh cell holding a copy of the
array behind `r`, returning the new heap and the fresh reference. -/
def allocCopy {α : Type} (h : JsHeap α) (r : Nat) : JsHeap α × Nat :=
  (⟨h.arrays ++ [readArr h r]⟩, h.arrays.length)

/-- `Array.prototype.sort`: sort the array behind `r` in place. -/
def sortInPlace {α : Type} (h : JsHeap α) (r : Nat) (cmp : α → α → Int) : JsHeap α :=
  writeArr h r (jsSortModel cmp (readArr h r))

/-- The call `sortByKey(array, key, order)` with `array` the cell behind
`r`: spread-copy, then in-place sort of the copy; the returned reference
is the fresh cell. -/
def sortByKeyRef (h : JsHeap Item) (r : Nat) (key order : JStr) : JsHeap Item × Nat :=
  let hr := allocCopy h r
  (sortInPlace hr.1 hr.2 (compareByKey key order), hr.2)

/-! ## Spec-side definitions

These follow the wording of the specification (not the code) and are
compared with the code-side definitions in the refinement theorems. -/

/-- Spec-side substring containment, stated positionally: some offset `i`
of `hay` starts an occurrence of `needle`. -/
def specContains (hay needle : JStr) : Bool :=
  (List.range (hay.length + 1)).any (fun i => (hay.drop i).take needle.length == needle)

/-- Spec-side per-item retention test of the amended filter claim: some
key in `keys` holds a truthy field value whose case-insensitive string
form contains the lowercased term as a substring. -/
def specRetains (item : Item) (searchTerm : JStr) (keys : List JStr) : Bool :=
  keys.any (fun key =>
    truthy (getField item key) &&
      specContains ((toStrV (getField item key)).map jsToLower) (searchTerm.map jsToLower))

/-- The retention test of claim C3 *as stated*: some key in `keys` holds
a field value, other than `null`/`undefined`, whose case-insensitive
string form contains the lowercased term as a substring. -/
def claimC3Retains (item : Item) (searchTerm : JStr) (keys : List JStr) : Bool :=
  keys.any (fun key =>
    getField item key != vNull && getField item key != vUndefined &&
      specContains ((toStrV (getField item key)).map jsToLower) (searchTerm.map jsToLower))

/-- Spec-side `timeAgo` on elapsed whole seconds, following the claim's
words: the coarsest unit from the ordered list with floored quotient at
least 1, else `"Just now"`. -/
def specTimeAgo (seconds : Int) : JStr :=
  if 1 ≤ Int.fdiv seconds 31536000 then fmtAgo (Int.fdiv seconds 31536000) "year".data
  else if 1 ≤ Int.fdiv seconds 2592000 then fmtAgo (Int.fdiv seconds 2592000) "month".data
  else if 1 ≤ Int.fdiv seconds 604800 then fmtAgo (Int.fdiv seconds 604800) "week".data
  else if 1 ≤ Int.fdiv seconds 86400 then fmtAgo (Int.fdiv seconds 86400) "day".data
  else if 1 ≤ Int.fdiv seconds 3600 then fmtAgo (Int.fdiv seconds 3600) "hour".data
  else if 1 ≤ Int.fdiv seconds 60 then fmtAgo (Int.fdiv seconds 60) "minute".data
  else "Just now".data

/-! ## Sample records for concrete witness instances -/

/-- Sample record with key `k = 1`, identity tag 10. -/
def itemK1a : Item := [("k".data, vNum 1), ("id".data, vNum 10)]

/-- Sample record with key `k = 1`, identity tag 20. -/
def itemK1b : Item := [("k".data, vNum 1), ("id".data, vNum 20)]

/-- Sample record with key `k = 0`. -/
def itemK0 : Item := [("k".data, vNum 0)]

/-! ## Canonical slug form (used to settle idempotence of slugify) -/

/-- `c` may appear as content in canonical slug output: an ASCII
lowercase letter or digit. -/
def isContentCh (c : Char) : Bool := isLowerCh c || isDigitCh c

/-- No two adjacent hyphens. -/
def noDoubleDash : JStr → Bool
  | [] => true
  | [_] => true
  | a :: b :: rest => !(a = '-' && b = '-') && noDoubleDash (b :: rest)

/-- The first character, when present, is not a hyphen. -/
def headNotDash : JStr → Bool
  | [] => true
  | c :: _ => !(c = '-')

/-- The last character, when present, is not a hyphen. -/
def lastNotDash : JStr → Bool
  | [] => true
  | [c] => !(c = '-')
  | _ :: c :: rest => lastNotDash (c :: rest)

/-- Canonical slug form: lowercase/digit content separated by single
hyphens, with no hyphen at either end. -/
def slugCanonical (l : JStr) : Bool :=
  l.all (fun c => isContentCh c || c = '-') && noDoubleDash l && headNotDash l && lastNotDash l

/-! # Theorems -/

/-! ## C5: truncate never exceeds the requested length -/

/-- C5: for every string `s` and every length `n ≥ 3` (the length of the
default suffix `"..."`), the string returned by `truncate(s, n, "...")`
has length at most `n`. -/
theorem truncate_length_le (s : JStr) (n : Int) (h : 3 ≤ n) :
    ((truncate s n "...".data).length : Int) ≤ n := by
  have h3 : ("...".data : JStr).length = 3 := by decide
  unfold truncate
  split
  · rename_i hc
    rcases Bool.or_eq_true_iff.mp hc with h1 | h2
    · have hs : s = [] := by simpa using h1
      subst hs
      simp only [List.length_nil, Int.natCast_zero]
      omega
    · exact of_decide_eq_true h2
  · rename_i hc
    simp only [Bool.or_eq_true, decide_eq_true_eq, not_or] at hc
    have hlen : n < (s.length : Int) := by
      rcases hc with ⟨_, hc2⟩
      omega
    simp only [jsSubstring, h3, List.length_append, List.length_drop, List.length_take]
    push_cast
    omega

/-- Witness for C5 at a concrete input. -/
theorem truncate_length_le_witness :
    (3 : Int) ≤ 8 ∧ ((truncate "hello world".data 8 "...".data).length : Int) ≤ 8 :=
  ⟨by decide, truncate_length_le "hello world".data 8 (by decide)⟩

/-! ## C6: timeAgo maps elapsed seconds to the coarsest unit -/

/-- C6: `timeAgo` maps the elapsed whole seconds between its input and
the current time to the coarsest unit from year, month, week, day, hour,
minute whose floored quotient is at least 1, formatted as
`"<n> <unit>(s) ago"`; when no unit reaches 1 (including zero or negative
elapsed time) it returns `"Just now"`; and 3661 elapsed seconds give
`"1 hour ago"`. -/
theorem timeAgo_maps_to_coarsest_unit :
    (∀ nowMs dateMs : Int,
        timeAgo nowMs dateMs = specTimeAgo (Int.fdiv (nowMs - dateMs) 1000)) ∧
    timeAgo 3661000 0 = "1 hour ago".data := by
  refine ⟨fun nowMs dateMs => ?_, by decide⟩
  unfold timeAgo specTimeAgo
  simp only [intervalsList, timeAgoLoop]
  split_ifs <;> rfl

/-! ## C7: isNotEmpty's return value (code bug) -/

/-- C7 (code-bug evidence): on the empty string, `isNotEmpty` returns the
empty string itself — a falsy value that is not a boolean — contradicting
the function's own `@returns {boolean}` documentation.  Truthiness-wise
the result does agree with the documented condition everywhere: it is
truthy exactly when the input is truthy and its trimmed form is
non-empty. -/
theorem isNotEmpty_not_boolean_on_empty :
    isNotEmpty "".data = vStr "".data ∧
    (∀ b : Bool, isNotEmpty "".data ≠ vBool b) ∧
    (∀ s : JStr, truthy (isNotEmpty s) = (truthy (vStr s) && decide (0 < (jsTrim s).length))) := by
  refine ⟨by decide, by decide, fun s => ?_⟩
  cases s with
  | nil => decide
  | cons c cs => simp [isNotEmpty, truthy]

/-! ## C9: falsy field values never match in filterBySearch -/

/-- C9: in `filterBySearch`, a key whose field value is falsy — the
number 0, the empty string, `false`, NaN (as well as null/undefined) —
contributes no match, regardless of the search term; in particular an
item whose only searched field holds the number 0 is not retained for the
term "0". -/
theorem filterBySearch_falsy_never_matches :
    (∀ (v : Value) (term : JStr), truthy v = false → valueMatches v term = false) ∧
    filterBySearch [[("k".data, vNum 0)]] "0".data ["k".data] = [] := by
  refine ⟨fun v term hv => ?_, by decide⟩
  simp [valueMatches, hv]

/-- Witness for C9 at a concrete falsy value. -/
theorem filterBySearch_falsy_never_matches_witness :
    truthy (vNum 0) = false ∧ valueMatches (vNum 0) "0".data = false :=
  ⟨by decide, filterBySearch_falsy_never_matches.1 (vNum 0) "0".data (by decide)⟩

/-! ## C1: debounce coalesces rapid call bursts into one execution -/

/-- If every later call arrives in order and strictly within `wait` of
the previous one, each call cancels the pending timer, so the run reduces
to the single firing scheduled by the last call. -/
theorem runDebounce_coalesce {α : Type} (wait : Int) (calls : List (Int × α)) :
    ∀ (t : Int) (a : α),
      List.Chain (fun c c' => c.1 ≤ c'.1 ∧ c'.1 < c.1 + wait) (t, a) calls →
      runDebounce wait calls (some (t + wait, a)) =
        [((calls.getLastD (t, a)).1 + wait, (calls.getLastD (t, a)).2)] := by
  induction calls with
  | nil => intro t a _; simp [runDebounce]
  | cons c rest ih =>
    intro t a hch
    obtain ⟨t', a'⟩ := c
    obtain ⟨⟨h1, h2⟩, hch'⟩ := List.chain_cons.mp hch
    have hnot : ¬ (t + wait ≤ t') := by omega
    simp only [runDebounce, hnot, if_false, List.getLastD_cons]
    exact ih t' a' hch'

/-- C1: for a nonempty burst of calls, consecutive ones separated by less
than `wait`, the wrapped function produced by `debounce` executes exactly
once, `wait` after the final call, with the final call's arguments. -/
theorem debounce_fires_once {α : Type} (wait t0 : Int) (a0 : α) (rest : List (Int × α))
    (hch : List.Chain (fun c c' => c.1 ≤ c'.1 ∧ c'.1 < c.1 + wait) (t0, a0) rest) :
    debounceExecutions wait ((t0, a0) :: rest) =
      [((rest.getLastD (t0, a0)).1 + wait, (rest.getLastD (t0, a0)).2)] := by
  show runDebounce wait ((t0, a0) :: rest) none = _
  simp only [runDebounce]
  exact runDebounce_coalesce wait rest t0 a0 hch

/-- Witness for C1: the spec's own example, calls at t = 0, 50, 100 with
wait 300 fire once at t = 400 with the last call's argument. -/
theorem debounce_fires_once_witness :
    List.Chain (fun c c' : Int × Nat => c.1 ≤ c'.1 ∧ c'.1 < c.1 + 300)
      (0, 0) [(50, 1), (100, 2)] ∧
    debounceExecutions 300 [((0 : Int), (0 : Nat)), (50, 1), (100, 2)] = [(400, 2)] := by
  have hch : List.Chain (fun c c' : Int × Nat => c.1 ≤ c'.1 ∧ c'.1 < c.1 + 300)
      (0, 0) [(50, 1), (100, 2)] :=
    List.Chain.cons ⟨by decide, by decide⟩
      (List.Chain.cons ⟨by decide, by decide⟩ List.Chain.nil)
  refine ⟨hch, ?_⟩
  have h := debounce_fires_once (α := Nat) 300 0 0 [(50, 1), (100, 2)] hch
  simpa using h

/-! ## C10: sortByKey returns a permutation of its input -/

/-- Inserting into the reversed accumulator produces a permutation of the
element consed onto the accumulator. -/
theorem insRev_perm {α : Type} (cmp : α → α → Int) (x : α) :
    ∀ l : List α, List.Perm (insRev cmp x l) (x :: l) := by
  intro l
  induction l with
  | nil => simp [insRev]
  | cons y ys ih =>
    by_cases hc : cmp x y < 0
    · simp only [insRev, hc, if_true]
      exact (ih.cons y).trans (List.Perm.swap x y ys)
    · simp [insRev, hc]

/-- The insertion fold permutes the processed elements onto the
accumulator. -/
theorem foldl_insRev_perm {α : Type} (cmp : α → α → Int) :
    ∀ (l acc : List α),
      List.Perm (l.foldl (fun acc x => insRev cmp x acc) acc) (l ++ acc) := by
  intro l
  induction l with
  | nil => simp
  | cons x xs ih =>
    intro acc
    show List.Perm (xs.foldl (fun acc x => insRev cmp x acc) (insRev cmp x acc)) (x :: xs ++ acc)
    have h2 : List.Perm (xs ++ insRev cmp x acc) (xs ++ (x :: acc)) :=
      List.Perm.append_left xs (insRev_perm cmp x acc)
    have h3 : List.Perm (xs ++ (x :: acc)) (x :: (xs ++ acc)) := List.perm_middle
    exact ((ih _).trans h2).trans h3

/-- C10: for every input array, key and order, the output of `sortByKey`
is a permutation of the input — the same elements with the same
multiplicities, none added, dropped or modified. -/
theorem sortByKey_permutation (array : List Item) (key order : JStr) :
    List.Perm (sortByKey array key order) array := by
  unfold sortByKey jsSortModel
  have h := foldl_insRev_perm (compareByKey key order) array []
  simpa using (List.reverse_perm _).trans h

/-! ## C4: sortByKey is stable -/

/-- An element equal (under the comparator) to every selected element is
inserted without passing any selected element. -/
theorem filter_insRev_pos {α : Type} (cmp : α → α → Int) (p : α → Bool) (x : α)
    (hx : p x = true) (h0 : ∀ y, p y = true → cmp x y = 0) :
    ∀ acc : List α, (insRev cmp x acc).filter p = x :: acc.filter p := by
  intro acc
  induction acc with
  | nil => simp [insRev, hx]
  | cons y ys ih =>
    by_cases hy : p y = true
    · have h := h0 y hy
      have hc : ¬ cmp x y < 0 := by omega
      simp [insRev, hc, hx, hy]
    · have hy' : p y = false := Bool.not_eq_true _ ▸ eq_false_of_ne_true hy
      by_cases hc : cmp x y < 0
      · simp [insRev, hc, hy', ih]
      · simp [insRev, hc, hx, hy']

/-- An unselected element is invisible to the selection filter wherever
it is inserted. -/
theorem filter_insRev_neg {α : Type} (cmp : α → α → Int) (p : α → Bool) (x : α)
    (hx : p x = false) :
    ∀ acc : List α, (insRev cmp x acc).filter p = acc.filter p := by
  intro acc
  induction acc with
  | nil => simp [insRev, hx]
  | cons y ys ih =>
    by_cases hc : cmp x y < 0
    · simp [insRev, hc, ih, List.filter_cons]
    · simp [insRev, hc, hx]

/-- Selected elements come out of the insertion fold in reversed input
order when the comparator ties on every selected pair. -/
theorem filter_foldl_insRev {α : Type} (cmp : α → α → Int) (p : α → Bool)
    (h : ∀ a b, p a = true → p b = true → cmp a b = 0) :
    ∀ l acc : List α,
      (l.foldl (fun acc x => insRev cmp x acc) acc).filter p
        = (l.filter p).reverse ++ acc.filter p := by
  intro l
  induction l with
  | nil => intro acc; simp
  | cons x xs ih =>
    intro acc
    show (xs.foldl (fun acc x => insRev cmp x acc) (insRev cmp x acc)).filter p = _
    rw [ih]
    by_cases hx : p x = true
    · rw [filter_insRev_pos cmp p x hx (fun y hy => h x y hx hy)]
      simp [List.filter_cons, hx]
    · have hx' : p x = false := Bool.not_eq_true _ ▸ eq_false_of_ne_true hx
      rw [filter_insRev_neg cmp p x hx']
      simp [List.filter_cons, hx']

/-- C4: `sortByKey` is stable.  For any boolean selection `p` of items
whose values at `key` are pairwise equal in the comparator's sense
(neither less than nor greater than one another), the selected items
appear in the output in exactly their input order; two items with equal
key values are the instance where `p` selects just those two. -/
theorem sortByKey_stable (array : List Item) (key order : JStr) (p : Item → Bool)
    (hp : ∀ a b : Item, p a = true → p b = true →
      jsLt (getField a key) (getField b key) = false ∧
      jsLt (getField b key) (getField a key) = false) :
    (sortByKey array key order).filter p = array.filter p := by
  have h0 : ∀ a b, p a = true → p b = true → compareByKey key order a b = 0 := by
    intro a b ha hb
    obtain ⟨h1, h2⟩ := hp a b ha hb
    simp [compareByKey, h1, h2]
  unfold sortByKey jsSortModel
  rw [List.filter_reverse, filter_foldl_insRev _ _ h0]
  simp

/-- Witness for C4: two records with the same key value 1 (and an item
with a different key value) keep their relative order. -/
theorem sortByKey_stable_witness :
    (sortByKey [itemK1a, itemK0, itemK1b] "k".data "asc".data).filter
        (fun item => getField item "k".data == vNum 1)
      = ([itemK1a, itemK0, itemK1b] : List Item).filter
        (fun item => getField item "k".data == vNum 1) :=
  sortByKey_stable [itemK1a, itemK0, itemK1b] "k".data "asc".data
    (fun item => getField item "k".data == vNum 1)
    (fun a b ha hb => by
      have ha' : getField a "k".data = vNum 1 := by simpa using ha
      have hb' : getField b "k".data = vNum 1 := by simpa using hb
      rw [ha', hb']
      exact ⟨by decide, by decide⟩)

/-! ## C8: sortByKey does not mutate its input array -/

/-- Setting the freshly appended cell rewrites only that cell. -/
theorem set_append_singleton_length {α : Type} (l : List α) (c v : α) :
    (l ++ [c]).set l.length v = l ++ [v] := by
  induction l with
  | nil => rfl
  | cons x xs ih => simp [ih]

/-- Reading below the length of the left part of an append ignores the
right part. -/
theorem getD_append_left {α : Type} (l l' : List α) (r : Nat) (d : α) (hr : r < l.length) :
    (l ++ l').getD r d = l.getD r d := by
  simp [List.getD, List.getElem?_append, hr]

/-- C8: `sortByKey` spreads its argument into a fresh array and sorts the
copy in place: after the call the caller's array cell is unchanged, the
returned reference is a different cell, and that cell holds the sorted
sequence of the input's elements. -/
theorem sortByKey_no_mutation (h : JsHeap Item) (r : Nat) (key order : JStr)
    (hr : r < h.arrays.length) :
    readArr (sortByKeyRef h r key order).1 r = readArr h r ∧
    (sortByKeyRef h r key order).2 ≠ r ∧
    readArr (sortByKeyRef h r key order).1 (sortByKeyRef h r key order).2
      = sortByKey (readArr h r) key order := by
  have hfresh : (h.arrays ++ [readArr h r]).getD h.arrays.length []
      = readArr h r := by
    simp [List.getD, List.getElem?_concat_length]
  refine ⟨?_, show h.arrays.length ≠ r by omega, ?_⟩
  · show ((h.arrays ++ [readArr h r]).set h.arrays.length
        (jsSortModel (compareByKey key order)
          ((h.arrays ++ [readArr h r]).getD h.arrays.length []))).getD r [] = _
    rw [hfresh, set_append_singleton_length]
    exact getD_append_left _ _ _ _ hr
  · show ((h.arrays ++ [readArr h r]).set h.arrays.length
        (jsSortModel (compareByKey key order)
          ((h.arrays ++ [readArr h r]).getD h.arrays.length []))).getD h.arrays.length []
      = _
    rw [hfresh, set_append_singleton_length]
    simp [List.getD, List.getElem?_concat_length, sortByKey]

/-- Witness for C8 on a one-cell heap holding a two-element array. -/
theorem sortByKey_no_mutation_witness :
    readArr (sortByKeyRef ⟨[[itemK1a, itemK0]]⟩ 0 "k".data "asc".data).1 0
        = readArr (⟨[[itemK1a, itemK0]]⟩ : JsHeap Item) 0 ∧
    (sortByKeyRef ⟨[[itemK1a, itemK0]]⟩ 0 "k".data "asc".data).2 ≠ 0 ∧
    readArr (sortByKeyRef ⟨[[itemK1a, itemK0]]⟩ 0 "k".data "asc".data).1
        (sortByKeyRef ⟨[[itemK1a, itemK0]]⟩ 0 "k".data "asc".data).2
      = sortByKey (readArr (⟨[[itemK1a, itemK0]]⟩ : JsHeap Item) 0) "k".data "asc".data :=
  sortByKey_no_mutation ⟨[[itemK1a, itemK0]]⟩ 0 "k".data "asc".data (by decide)

/-! ## C3: what filterBySearch actually retains -/

/-- The scanning initial-segment test agrees with the positional one. -/
theorem startsWithL_eq_take (needle : JStr) :
    ∀ hay : JStr, startsWithL needle hay = (hay.take needle.length == needle) := by
  induction needle with
  | nil => intro hay; simp [startsWithL]
  | cons a as ih =>
    intro hay
    cases hay with
    | nil => simp [startsWithL]
    | cons b bs =>
      simp only [startsWithL, List.length_cons, List.take_succ_cons, ih, List.cons_beq_cons]
      by_cases hab : a = b
      · subst hab; simp
      · simp [hab, Ne.symm hab]

/-- Peeling the head of the haystack off the positional substring
test. -/
theorem specContains_cons (c : Char) (rest needle : JStr) :
    specContains (c :: rest) needle
      = (((c :: rest).take needle.length == needle) || specContains rest needle) := by
  unfold specContains
  rw [List.length_cons, List.range_succ_eq_map]
  simp [List.any_map, Function.comp_def, List.drop_succ_cons]

/-- The scanning substring test agrees with the positional one used by
the spec-side retention predicate. -/
theorem includesL_eq_specContains :
    ∀ hay needle : JStr, includesL hay needle = specContains hay needle := by
  intro hay
  induction hay with
  | nil =>
    intro needle
    simp [includesL, specContains, startsWithL_eq_take, List.range_succ_eq_map]
  | cons c rest ih =>
    intro needle
    rw [specContains_cons]
    simp only [includesL, startsWithL_eq_take, ih]

/-- C3 counterexample: an item whose searched field holds the number 0 —
neither null nor undefined, and with string form "0" containing the term
"0" — is *not* retained by `filterBySearch` for the term "0", because the
code requires the field value to be truthy. -/
theorem filterBySearch_zero_counterexample :
    filterBySearch [[("k".data, vNum 0)]] "0".data ["k".data] = [] ∧
    claimC3Retains [("k".data, vNum 0)] "0".data ["k".data] = true := by decide

/-- C3 (amended): for a non-empty search term, `filterBySearch` retains
exactly those items for which at least one key holds a *truthy* field
value whose case-insensitive string form contains the lowercased term as
a substring; a key whose value is falsy (null, undefined, 0, NaN, false
or the empty string) gains no match from that key. -/
theorem filterBySearch_retains_truthy (array : List Item) (searchTerm : JStr)
    (keys : List JStr) (hne : searchTerm ≠ []) :
    filterBySearch array searchTerm keys
      = array.filter (fun item => specRetains item searchTerm keys) := by
  unfold filterBySearch specRetains
  rw [if_neg (by simpa using hne)]
  simp only [valueMatches, includesL_eq_specContains]

/-- Witness for C3's amended theorem at a concrete input: the term "ab"
retains the item whose name contains "AB" and drops the other. -/
theorem filterBySearch_retains_truthy_witness :
    ("ab".data ≠ ([] : JStr)) ∧
    filterBySearch
        [[("name".data, vStr "CABLE".data)], [("name".data, vStr "cord".data)]]
        "ab".data ["name".data]
      = List.filter
          (fun item => specRetains item "ab".data ["name".data])
          [[("name".data, vStr "CABLE".data)], [("name".data, vStr "cord".data)]] :=
  ⟨by decide,
    filterBySearch_retains_truthy
      [[("name".data, vStr "CABLE".data)], [("name".data, vStr "cord".data)]]
      "ab".data ["name".data] (by decide)⟩

/-! ## C2: slugify is idempotent -/

/-- `Char.ofNat` below the surrogate range reads back its code point. -/
theorem charToNat_ofNat_small (n : Nat) (h : n < 55296) : (Char.ofNat n).toNat = n := by
  rw [Char.ofNat, dif_pos (Or.inl h)]
  rfl

/-- Lowercasing never produces an ASCII uppercase letter. -/
theorem jsToLower_not_upper (c : Char) : isUpperCh (jsToLower c) = false := by
  unfold jsToLower
  by_cases h : isUpperCh c = true
  · rw [if_pos h]
    have hn : 65 ≤ c.toNat ∧ c.toNat ≤ 90 := of_decide_eq_true h
    have he : (Char.ofNat (c.toNat + 32)).toNat = c.toNat + 32 :=
      charToNat_ofNat_small _ (by omega)
    unfold isUpperCh
    rw [he]
    exact decide_eq_false (by omega)
  · rw [if_neg h]
    exact Bool.eq_false_iff.mpr h

/-- Content characters are not whitespace. -/
theorem isContentCh_not_ws (c : Char) (h : isContentCh c = true) : isWsCh c = false := by
  rcases Bool.or_eq_true_iff.mp h with h' | h' <;>
  · have hn := of_decide_eq_true h'
    simp [isWsCh, wsCodes]
    omega

/-- Content characters are not separators. -/
theorem isContentCh_not_sep (c : Char) (h : isContentCh c = true) : isSepCh c = false := by
  have hws := isContentCh_not_ws c h
  have hn : (97 ≤ c.toNat ∧ c.toNat ≤ 122) ∨ (48 ≤ c.toNat ∧ c.toNat ≤ 57) := by
    rcases Bool.or_eq_true_iff.mp h with h' | h'
    · exact Or.inl (of_decide_eq_true h')
    · exact Or.inr (of_decide_eq_true h')
  have h1 : c ≠ '_' := by
    intro he
    rw [he, show ('_').toNat = 95 from rfl] at hn
    omega
  have h2 : c ≠ '-' := by
    intro he
    rw [he, show ('-').toNat = 45 from rfl] at hn
    omega
  simp [isSepCh, hws, h1, h2]

/-- Content characters and the hyphen are fixed by lowercasing. -/
theorem jsToLower_fix (c : Char) (h : isContentCh c = true ∨ c = '-') : jsToLower c = c := by
  unfold jsToLower
  rcases h with h | h
  · have hu : isUpperCh c = false := by
      rcases Bool.or_eq_true_iff.mp h with h' | h' <;>
      · have hn := of_decide_eq_true h'
        exact decide_eq_false (by omega)
    simp [hu]
  · subst h; decide

/-- `noDoubleDash` restricts to the tail. -/
theorem noDoubleDash_tail {c : Char} {l : JStr} (h : noDoubleDash (c :: l) = true) :
    noDoubleDash l = true := by
  cases l with
  | nil => rfl
  | cons d r =>
    simp only [noDoubleDash, Bool.and_eq_true] at h
    exact h.2

/-- After a hyphen, `noDoubleDash` forbids a hyphen next. -/
theorem noDoubleDash_head {c : Char} {l : JStr} (h : noDoubleDash (c :: l) = true)
    (hc : c = '-') : headNotDash l = true := by
  cases l with
  | nil => rfl
  | cons d r =>
    have h1 : (!(c = '-' && d = '-')) = true := by
      simp only [noDoubleDash, Bool.and_eq_true] at h
      exact h.1
    subst hc
    cases hd : decide (d = '-') with
    | false => simp [headNotDash, of_decide_eq_false hd]
    | true =>
      exfalso
      rw [of_decide_eq_true hd] at h1
      simp at h1

/-- Extending on the left preserves `noDoubleDash` when the join is not a
double hyphen. -/
theorem noDoubleDash_cons (c : Char) (l : JStr) (h1 : noDoubleDash l = true)
    (h2 : c = '-' → headNotDash l = true) : noDoubleDash (c :: l) = true := by
  cases l with
  | nil => rfl
  | cons d r =>
    simp only [noDoubleDash, Bool.and_eq_true]
    refine ⟨?_, h1⟩
    by_cases hc : c = '-'
    · have := h2 hc
      have hd : d ≠ '-' := by
        intro he
        rw [he] at this
        simp [headNotDash] at this
      simp [hd]
    · simp [hc]

/-- Dropping leading hyphens leaves no leading hyphen. -/
theorem headNotDash_dropWhile (l : JStr) :
    headNotDash (l.dropWhile (fun c => c = '-')) = true := by
  induction l with
  | nil => rfl
  | cons c cs ih =>
    by_cases hc : c = '-'
    · simpa [List.dropWhile_cons, hc] using ih
    · simp [List.dropWhile_cons, hc, headNotDash]

/-- Dropping leading hyphens preserves `noDoubleDash`. -/
theorem noDoubleDash_dropWhile (l : JStr) (h : noDoubleDash l = true) :
    noDoubleDash (l.dropWhile (fun c => c = '-')) = true := by
  induction l with
  | nil => rfl
  | cons c cs ih =>
    by_cases hc : c = '-'
    · simpa [List.dropWhile_cons, hc] using ih (noDoubleDash_tail h)
    · simpa [List.dropWhile_cons, hc] using h

/-- `dropTrailingDashes` only removes elements. -/
theorem mem_dropTrailingDashes {c : Char} : ∀ {l : JStr}, c ∈ dropTrailingDashes l → c ∈ l := by
  intro l
  induction l with
  | nil => intro h; exact h
  | cons d ds ih =>
    intro h
    rw [dropTrailingDashes] at h
    rcases he : dropTrailingDashes ds with _ | ⟨r, rs⟩
    · rw [he] at h
      by_cases hd : d = '-'
      · simp [hd] at h
      · simp [hd] at h
        simp [h]
    · rw [he] at h
      rcases List.mem_cons.mp h with h' | h'
      · simp [h']
      · exact List.mem_cons_of_mem _ (ih (he ▸ h'))

/-- `dropTrailingDashes` leaves no trailing hyphen. -/
theorem lastNotDash_dropTrailingDashes (l : JStr) :
    lastNotDash (dropTrailingDashes l) = true := by
  induction l with
  | nil => rfl
  | cons c cs ih =>
    rw [dropTrailingDashes]
    rcases he : dropTrailingDashes cs with _ | ⟨r, rs⟩
    · by_cases hc : c = '-'
      · simp [hc, lastNotDash]
      · simp [hc, lastNotDash]
    · rw [he] at ih
      simpa [lastNotDash] using ih

/-- `dropTrailingDashes` keeps the head when the result is nonempty. -/
theorem head_dropTrailingDashes (l : JStr) :
    dropTrailingDashes l = [] ∨ (dropTrailingDashes l).head? = l.head? := by
  cases l with
  | nil => exact Or.inl rfl
  | cons c cs =>
    rw [dropTrailingDashes]
    rcases dropTrailingDashes cs with _ | ⟨r, rs⟩
    · by_cases hc : c = '-'
      · exact Or.inl (by simp [hc])
      · exact Or.inr (by simp [hc])
    · exact Or.inr rfl

/-- `dropTrailingDashes` preserves the absence of a leading hyphen. -/
theorem headNotDash_dropTrailingDashes (l : JStr) (h : headNotDash l = true) :
    headNotDash (dropTrailingDashes l) = true := by
  rcases head_dropTrailingDashes l with he | he
  · rw [he]; rfl
  · cases hl : dropTrailingDashes l with
    | nil => rfl
    | cons r rs =>
      rw [hl] at he
      cases l with
      | nil => simp at he
      | cons c cs =>
        simp at he
        rw [he]
        simpa [headNotDash] using h

/-- `dropTrailingDashes` preserves `noDoubleDash`. -/
theorem noDoubleDash_dropTrailingDashes (l : JStr) (h : noDoubleDash l = true) :
    noDoubleDash (dropTrailingDashes l) = true := by
  induction l with
  | nil => rfl
  | cons c cs ih =>
    rw [dropTrailingDashes]
    rcases he : dropTrailingDashes cs with _ | ⟨r, rs⟩
    · by_cases hc : c = '-' <;> simp [hc, noDoubleDash]
    · have hn := he ▸ ih (noDoubleDash_tail h)
      refine noDoubleDash_cons c (r :: rs) hn ?_
      intro hc
      rcases head_dropTrailingDashes cs with h' | h'
      · rw [he] at h'; exact absurd h' (by simp)
      · rw [he] at h'
        cases cs with
        | nil => simp at h'
        | cons d ds =>
          simp at h'
          have hh := noDoubleDash_head h hc
          rw [h']
          simpa [headNotDash] using hh

/-- Every character of the collapsed string is a hyphen or a non-separator
character of the input. -/
theorem collapseSeps_mem (l : JStr) :
    ∀ (b : Bool) (c : Char), c ∈ collapseSeps l b → c = '-' ∨ (c ∈ l ∧ isSepCh c = false) := by
  induction l with
  | nil => intro b c h; simp [collapseSeps] at h
  | cons d ds ih =>
    intro b c h
    by_cases hd : isSepCh d = true
    · rw [collapseSeps, if_pos hd] at h
      cases b with
      | true =>
        rcases ih true c h with h' | h'
        · exact Or.inl h'
        · exact Or.inr ⟨List.mem_cons_of_mem _ h'.1, h'.2⟩
      | false =>
        rcases List.mem_cons.mp h with h' | h'
        · exact Or.inl h'
        · rcases ih true c h' with h'' | h''
          · exact Or.inl h''
          · exact Or.inr ⟨List.mem_cons_of_mem _ h''.1, h''.2⟩
    · rw [collapseSeps, if_neg hd] at h
      rcases List.mem_cons.mp h with h' | h'
      · subst h'
        exact Or.inr ⟨List.mem_cons_self _ _, Bool.eq_false_iff.mpr hd⟩
      · rcases ih false c h' with h'' | h''
        · exact Or.inl h''
        · exact Or.inr ⟨List.mem_cons_of_mem _ h''.1, h''.2⟩

/-- The collapsed string has no adjacent hyphens, and starts with a
non-hyphen when the flag says a run is already open. -/
theorem collapseSeps_noDD (l : JStr) :
    ∀ b : Bool, noDoubleDash (collapseSeps l b) = true ∧
      (b = true → headNotDash (collapseSeps l b) = true) := by
  induction l with
  | nil => intro b; exact ⟨rfl, fun _ => rfl⟩
  | cons d ds ih =>
    intro b
    by_cases hd : isSepCh d = true
    · cases b with
      | true =>
        rw [collapseSeps, if_pos hd]
        exact ⟨(ih true).1, fun _ => (ih true).2 rfl⟩
      | false =>
        rw [collapseSeps, if_pos hd]
        constructor
        · refine noDoubleDash_cons '-' _ (ih true).1 ?_
          intro _
          exact (ih true).2 rfl
        · intro hb; cases hb
    · have hdd : d ≠ '-' := by
        intro he
        rw [he] at hd
        exact hd (by decide)
      rw [collapseSeps, if_neg hd]
      constructor
      · refine noDoubleDash_cons d _ (ih false).1 ?_
        intro he
        exact absurd he hdd
      · intro _
        simp [headNotDash, hdd]

/-- Members of the trimmed string are members of the string. -/
theorem mem_jsTrim {c : Char} {l : JStr} (h : c ∈ jsTrim l) : c ∈ l := by
  unfold jsTrim at h
  rw [List.mem_reverse] at h
  have h1 := (List.dropWhile_sublist _).subset h
  rw [List.mem_reverse] at h1
  exact (List.dropWhile_sublist _).subset h1

/-- Every character of `slugify s` is canonical content or a hyphen. -/
theorem slugify_alphabet (s : JStr) :
    ∀ c ∈ slugify s, isContentCh c = true ∨ c = '-' := by
  intro c h
  unfold slugify stripHyphens at h
  have h1 : c ∈ collapseSeps (removeSpecial (jsTrim (s.map jsToLower))) false :=
    (List.dropWhile_sublist _).subset (mem_dropTrailingDashes h)
  rcases collapseSeps_mem _ false c h1 with h' | ⟨h2, hsep⟩
  · exact Or.inr h'
  left
  have h3 : c ∈ jsTrim (s.map jsToLower) ∧
      (isWordCh c || isWsCh c || c = '-') = true := by
    unfold removeSpecial at h2
    have hm := List.mem_filter.mp h2
    exact ⟨hm.1, hm.2⟩
  have h4 : c ∈ s.map jsToLower := mem_jsTrim h3.1
  have hup : isUpperCh c = false := by
    rcases List.mem_map.mp h4 with ⟨c0, _, he⟩
    rw [← he]
    exact jsToLower_not_upper c0
  simp only [isSepCh, Bool.or_eq_false_iff] at hsep
  obtain ⟨⟨hws, hus⟩, hdash⟩ := hsep
  rcases Bool.or_eq_true_iff.mp h3.2 with hw | hdash'
  · rcases Bool.or_eq_true_iff.mp hw with hw' | hws'
    · unfold isWordCh at hw'
      simp only [Bool.or_eq_true] at hw'
      rcases hw' with ((hu | hl) | hd) | hu'
      · rw [hup] at hu; cases hu
      · simp [isContentCh, hl]
      · simp [isContentCh, hd]
      · rw [hu'] at hus; cases hus
    · rw [hws'] at hws; cases hws
  · rw [hdash'] at hdash; cases hdash

/-- The output of `slugify` is in canonical slug form. -/
theorem slugify_canonical (s : JStr) : slugCanonical (slugify s) = true := by
  unfold slugCanonical
  simp only [Bool.and_eq_true]
  refine ⟨⟨⟨?_, ?_⟩, ?_⟩, ?_⟩
  · rw [List.all_eq_true]
    intro c hc
    rcases slugify_alphabet s c hc with h | h
    · simp [h]
    · simp [h]
  · show noDoubleDash (stripHyphens _) = true
    unfold stripHyphens
    exact noDoubleDash_dropTrailingDashes _
      (noDoubleDash_dropWhile _ (collapseSeps_noDD _ false).1)
  · show headNotDash (stripHyphens _) = true
    unfold stripHyphens
    exact headNotDash_dropTrailingDashes _ (headNotDash_dropWhile _)
  · show lastNotDash (stripHyphens _) = true
    unfold stripHyphens
    exact lastNotDash_dropTrailingDashes _

/-- `dropWhile` is the identity when no element satisfies the
predicate. -/
theorem dropWhile_eq_self_of_none {p : Char → Bool} (l : JStr) (h : ∀ c ∈ l, p c = false) :
    l.dropWhile p = l := by
  cases l with
  | nil => rfl
  | cons c cs => simp [List.dropWhile_cons, h c (List.mem_cons_self _ _)]

/-- Trimming is the identity on whitespace-free strings. -/
theorem jsTrim_id (l : JStr) (h : ∀ c ∈ l, isWsCh c = false) : jsTrim l = l := by
  unfold jsTrim
  rw [dropWhile_eq_self_of_none l h,
      dropWhile_eq_self_of_none _ (fun c hc => h c (List.mem_reverse.mp hc))]
  exact List.reverse_reverse l

/-- The character filter keeps every canonical character. -/
theorem removeSpecial_id (l : JStr) (h : ∀ c ∈ l, isContentCh c = true ∨ c = '-') :
    removeSpecial l = l := by
  unfold removeSpecial
  rw [List.filter_eq_self]
  intro c hc
  rcases h c hc with h' | h'
  · rcases Bool.or_eq_true_iff.mp h' with hl | hd
    · simp [isWordCh, hl]
    · simp [isWordCh, hd]
  · simp [h']

/-- Lowercasing is the identity on canonical strings. -/
theorem map_jsToLower_id (l : JStr) (h : ∀ c ∈ l, isContentCh c = true ∨ c = '-') :
    l.map jsToLower = l := by
  have hfix : ∀ c ∈ l, jsToLower c = id c := fun c hc => jsToLower_fix c (h c hc)
  rw [List.map_congr_left hfix, List.map_id]

/-- Collapsing separator runs is the identity on canonical strings
(starting outside a run; with an open run it is the identity whenever the
string does not start with a hyphen). -/
theorem collapseSeps_id (l : JStr) (hA : ∀ c ∈ l, isContentCh c = true ∨ c = '-')
    (hD : noDoubleDash l = true) :
    collapseSeps l false = l ∧ (headNotDash l = true → collapseSeps l true = l) := by
  induction l with
  | nil => exact ⟨rfl, fun _ => rfl⟩
  | cons c cs ih =>
    have hA' : ∀ x ∈ cs, isContentCh x = true ∨ x = '-' :=
      fun x hx => hA x (List.mem_cons_of_mem _ hx)
    obtain ⟨ih1, ih2⟩ := ih hA' (noDoubleDash_tail hD)
    rcases hA c (List.mem_cons_self _ _) with hc | hc
    · have hsep : isSepCh c = false := isContentCh_not_sep c hc
      constructor
      · rw [collapseSeps, if_neg (by simp [hsep]), ih1]
      · intro _
        rw [collapseSeps, if_neg (by simp [hsep]), ih1]
    · subst hc
      have hh : headNotDash cs = true := noDoubleDash_head hD rfl
      have hsep' : isSepCh '-' = true := by decide
      constructor
      · simp only [collapseSeps, hsep', if_true, Bool.false_eq_true, if_false]
        rw [ih2 hh]
      · intro hhead
        exfalso
        simp [headNotDash] at hhead

/-- Dropping leading hyphens is the identity when there is none. -/
theorem dropWhile_dash_id (l : JStr) (h : headNotDash l = true) :
    l.dropWhile (fun c => c = '-') = l := by
  cases l with
  | nil => rfl
  | cons c cs =>
    simp only [headNotDash, Bool.not_eq_eq_eq_not, Bool.not_true, decide_eq_false_iff_not] at h
    simp [List.dropWhile_cons, h]

/-- Dropping trailing hyphens is the identity when there is none. -/
theorem dropTrailingDashes_id (l : JStr) (h : lastNotDash l = true) :
    dropTrailingDashes l = l := by
  induction l with
  | nil => rfl
  | cons c cs ih =>
    cases cs with
    | nil =>
      simp only [lastNotDash, Bool.not_eq_eq_eq_not, Bool.not_true,
        decide_eq_false_iff_not] at h
      simp [dropTrailingDashes, h]
    | cons d ds =>
      have h' : lastNotDash (d :: ds) = true := h
      rw [dropTrailingDashes, ih h']

/-- `slugify` fixes every string in canonical slug form. -/
theorem slugify_fix (l : JStr) (h : slugCanonical l = true) : slugify l = l := by
  unfold slugCanonical at h
  simp only [Bool.and_eq_true] at h
  obtain ⟨⟨⟨hall, hdd⟩, hhead⟩, hlast⟩ := h
  have hA : ∀ c ∈ l, isContentCh c = true ∨ c = '-' := by
    intro c hc
    have hx := List.all_eq_true.mp hall c hc
    rcases Bool.or_eq_true_iff.mp hx with h' | h'
    · exact Or.inl h'
    · exact Or.inr (of_decide_eq_true h')
  have hWs : ∀ c ∈ l, isWsCh c = false := by
    intro c hc
    rcases hA c hc with h' | h'
    · exact isContentCh_not_ws c h'
    · subst h'; decide
  unfold slugify
  rw [map_jsToLower_id l hA, jsTrim_id l hWs, removeSpecial_id l hA,
      (collapseSeps_id l hA hdd).1]
  unfold stripHyphens
  rw [dropWhile_dash_id l hhead, dropTrailingDashes_id l hlast]

/-- C2: `slugify` is idempotent: applying it to its own output returns
that output unchanged, for every string. -/
theorem slugify_idempotent (s : JStr) : slugify (slugify s) = slugify s :=
  slugify_fix (slugify s) (slugify_canonical s)
